import Mathlib

/-!
Verification development for `Deisotoper::deisotopeAndSingleCharge`
(OpenMS, FILTERING/DATAREDUCTION/Deisotoper.cpp).

The routine is embedded shallowly: C++ doubles become exact rationals,
`std::vector` working state becomes explicit lists, and the in-place
mutation of the spectrum becomes a pure function from the input spectrum
(plus a parameter record) to an output spectrum.  Fallible behaviour
(the `Exception::IllegalArgument` throw) becomes `Except`.

Helpers of the routine whose implementations are not among the shown
sources (`MSSpectrum::findNearest`, the `WindowMower` preselection and
the mass constants from `CONCEPT/Constants.h`) are modelled from the
specification; their doc comments say so explicitly.
-/

namespace OpenMS

/-- A mass-spectrometry peak: m/z position and intensity.  The C++
`Peak1D` stores both as doubles; they are modelled as exact rationals. -/
structure Peak where
  mz : ℚ
  intensity : ℚ
  deriving Repr, DecidableEq, Inhabited

/-- A precursor record attached to a spectrum (m/z and integer charge). -/
structure Precursor where
  mz : ℚ
  charge : Int
  deriving Repr, DecidableEq

/-- A spectrum: an ordered peak list, named parallel integer data arrays
and the list of precursor records. -/
structure MSSpectrum where
  peaks : List Peak
  intArrays : List (String × List Int) := []
  precursors : List Precursor := []
  deriving Repr, DecidableEq

/-- Parameter record of `deisotopeAndSingleCharge`, one field per C++
argument (the spectrum itself is passed separately). -/
structure DeisoParams where
  fragment_tolerance : ℚ
  fragment_unit_ppm : Bool
  min_charge : Int
  max_charge : Int
  keep_only_deisotoped : Bool
  min_isopeaks : Nat
  max_isopeaks : Nat
  make_single_charged : Bool
  annotate_charge : Bool
  annotate_iso_peak_count : Bool
  use_decreasing_model : Bool
  start_intensity_check : Nat
  add_up_intensity : Bool
  deriving Repr, DecidableEq

/-- Modelled from the spec: `Constants::C13C12_MASSDIFF_U`
(CONCEPT/Constants.h is not among the shown sources).  The C13 minus C12
mass difference in unified atomic mass units, 1.0033548378 u. -/
def c13c12MassDiffU : ℚ := 10033548378 / 10 ^ 10

/-- Modelled from the spec: `Constants::PROTON_MASS_U` (CONCEPT/Constants.h
is not among the shown sources; the spec quotes 1.00728).  The proton mass
in unified atomic mass units, 1.00727646688 u. -/
def protonMassU : ℚ := 100727646688 / 10 ^ 11

/-- Modelled from the spec: the Tolerance Converter `Math::ppmToMass`
(MATH/MISC/MathFunctions.h is not among the shown sources): converts a
relative ppm tolerance into an absolute mass tolerance at a given m/z. -/
def ppmToMass (ppm mz : ℚ) : ℚ := ppm * mz / 10 ^ 6

/-- The hard-coded low-mass preservation threshold
(`preserve_low_mz_peaks_threshold = 154.0` in the source). -/
def preserveLowMzThreshold : ℚ := 154

/-- Modelled from the spec: the Nearest-Peak Locator
`MSSpectrum::findNearest(mz, tolerance)`, whose implementation is not
among the shown sources: return the index of the peak closest in m/z to
the target if its distance is within the tolerance, else none (`-1` in
the C++).  On a distance tie the earlier index is kept. -/
def findNearest (peaks : List Peak) (target tol : ℚ) : Option Nat :=
  match peaks.enum.foldl
      (fun acc ip =>
        match acc with
        | none => some ip
        | some jp => if |ip.2.mz - target| < |jp.2.mz - target| then some ip else acc)
      none with
  | none => none
  | some ip => if |ip.2.mz - target| ≤ tol then some ip.1 else none

/-- One update step of the per-window argmax table used by
`highIntensityIndices`: entries are (window id, peak index, intensity),
a strictly more intense peak replaces the stored one for its window. -/
def updateWindowBest : List (Int × Nat × ℚ) → Int → Nat → ℚ → List (Int × Nat × ℚ)
  | [], w, i, h => [(w, i, h)]
  | e :: rest, w, i, h =>
    if e.1 = w then
      (if e.2.2 < h then (w, i, h) :: rest else e :: rest)
    else e :: updateWindowBest rest w i h

/-- Modelled from the spec: the `WindowMower` preselection (its
implementation is not among the shown sources): a jumping window of
fixed width 4 m/z units anchored at the first peak's m/z keeps the
single most intense peak per window.  Returns the original indices of
the retained peaks (the source threads them through an "index" integer
data array). -/
def highIntensityIndices (peaks : List Peak) : List Nat :=
  match peaks with
  | [] => []
  | p0 :: _ =>
    (peaks.enum.foldl
      (fun acc ip => updateWindowBest acc ⌊(ip.2.mz - p0.mz) / 4⌋ ip.1 ip.2.intensity)
      []).map (fun e => e.2.1)

/-- The per-peak working state of the discovery phase: charge per peak
(`mono_isotopic_peak`, init 0), feature id per peak (`features`, init -1),
accumulated intensity (`mono_iso_peak_intensity`, init 0), isotope-run
length (`iso_peak_count`, init 1) and the running `feature_number`. -/
structure DState where
  mono : List Int
  features : List Int
  monoInt : List ℚ
  isoCount : List Nat
  featNum : Int
  deriving Repr, DecidableEq

/-- The initial working state for a spectrum of `n` peaks. -/
def initState (n : Nat) : DState :=
  { mono := List.replicate n 0
    features := List.replicate n (-1)
    monoInt := List.replicate n 0
    isoCount := List.replicate n 1
    featNum := 0 }

/-- Peak lookup with a default, mirroring unchecked `operator[]`. -/
def peakAt (peaks : List Peak) (i : Nat) : Peak := peaks.getD i default

/-- The tolerance in Dalton used for one seed peak
(`tolerance_dalton` in the source). -/
def tolDaltonFor (ps : DeisoParams) (mz : ℚ) : ℚ :=
  if ps.fragment_unit_ppm then ppmToMass ps.fragment_tolerance mz else ps.fragment_tolerance

/-- The precursor-mass pruning test (`continue` in the source): present
only when the spectrum carries exactly one precursor record, it skips a
charge hypothesis whose theoretical neutral mass exceeds the precursor
mass plus the tolerance. -/
def precursorPrunes (spec : MSSpectrum) (tolDa currentMz : ℚ) (q : Int) : Bool :=
  match spec.precursors with
  | [pr] =>
    let precursorMass := pr.mz * (pr.charge : ℚ) - protonMassU * (pr.charge : ℚ)
    decide (precursorMass + tolDa < currentMz * (q : ℚ) - protonMassU * (q : ℚ))
  | _ => false

/-- The isotope-run extension loop (`for (unsigned int i = 1; i < max_isopeaks; ++i)`
in the source), written with explicit fuel so that the recursion is
structural: the invariant is `fuel = max_isopeaks - i`, so `fuel = 0`
is exactly the loop exit `i ≥ max_isopeaks` (and leaves
`has_min_isopeaks` at its initial value `true`).  Returns the extension
index list and the final `has_min_isopeaks` flag.  `isSeedPass` selects
the high-intensity seed pass variant, which carries the extra `< 0.01`
first-isotope noise-ratio guard absent from the exhaustive pass. -/
def extendGo (peaks : List Peak) (ps : DeisoParams) (isSeedPass : Bool)
    (currentMz tolDa : ℚ) (q : Int) :
    Nat → Nat → List Nat → List Nat × Bool
  | 0, _, exts => (exts, true)
  | fuel + 1, i, exts =>
    let expected := currentMz + (i : ℚ) * c13c12MassDiffU / (q : ℚ)
    match findNearest peaks expected tolDa with
    | none => (exts, decide (ps.min_isopeaks ≤ i))
    | some p =>
      let candInt := (peakAt peaks p).intensity
      let prevInt := (peakAt peaks (exts.getLastD 0)).intensity
      if ps.use_decreasing_model && decide (ps.start_intensity_check ≤ i)
          && decide (prevInt < candInt) then
        (exts, decide (ps.min_isopeaks ≤ i))
      else if i == 1 && decide ((10 : ℚ) < candInt / prevInt) then
        (exts, decide (ps.min_isopeaks ≤ i))
      else if isSeedPass && i == 1 && decide (candInt / prevInt < 1 / 100) then
        (exts, decide (ps.min_isopeaks ≤ i))
      else
        extendGo peaks ps isSeedPass currentMz tolDa q fuel (i + 1) (exts ++ [p])

/-- Claim every index of the extension list for the given feature number
(`features[extensions[i]] = feature_number` in the source). -/
def claimExtensions (exts : List Nat) (v : Int) (fs : List Int) : List Int :=
  exts.foldl (fun fs j => fs.set j v) fs

/-- One charge hypothesis for one seed peak (the body of the
`for (int q = max_charge; q >= min_charge; --q)` loop, shared verbatim
by both passes in the source up to the extra seed-pass ratio guard):
guarded by `features[current_peak] == -1`, optionally pruned by the
precursor mass, then the extension run; any added extension updates
`iso_peak_count[current_peak]` (net effect: the extension length, written
only when at least one isotope peak was added), and on
`has_min_isopeaks` the run is accepted: charge recorded, members claimed,
intensities summed, feature number incremented. -/
def tryCharge (spec : MSSpectrum) (ps : DeisoParams) (isSeedPass : Bool)
    (s : DState) (c : Nat) (q : Int) : DState :=
  if s.features.getD c (-1) = -1 then
    let currentMz := (peakAt spec.peaks c).mz
    let tolDa := tolDaltonFor ps currentMz
    if precursorPrunes spec tolDa currentMz q then s
    else
      let ext := extendGo spec.peaks ps isSeedPass currentMz tolDa q
        (ps.max_isopeaks - 1) 1 [c]
      let s1 :=
        if ps.annotate_iso_peak_count && decide (2 ≤ ext.1.length) then
          { s with isoCount := s.isoCount.set c ext.1.length }
        else s
      if ext.2 then
        { s1 with
          mono := s1.mono.set c q
          features := claimExtensions ext.1 s1.featNum s1.features
          monoInt :=
            if ps.add_up_intensity then
              s1.monoInt.set c
                (s1.monoInt.getD c 0 +
                  (((ext.1.drop 1).map (fun j => (peakAt spec.peaks j).intensity)).sum))
            else s1.monoInt
          featNum := s1.featNum + 1 }
      else s1
  else s

/-- The descending charge list `max_charge, max_charge - 1, ..., min_charge`
(empty when `max_charge < min_charge`). -/
def chargesDesc (minq maxq : Int) : List Int :=
  (List.range (maxq + 1 - minq).toNat).map (fun (k : Nat) => maxq - (k : Int))

/-- The full charge loop for one seed peak: charge hypotheses are tried
from `max_charge` down to `min_charge`. -/
def tryCharges (spec : MSSpectrum) (ps : DeisoParams) (isSeedPass : Bool)
    (s : DState) (c : Nat) : DState :=
  (chargesDesc ps.min_charge ps.max_charge).foldl
    (fun s q => tryCharge spec ps isSeedPass s c q) s

/-- One iteration of either seed loop: if `add_up_intensity`, the seed
slot of `mono_iso_peak_intensity` is (re)initialised to the peak's own
intensity — unconditionally, before the unclaimed-seed guard, exactly as
in the source — then all charge hypotheses are tried. -/
def passStep (spec : MSSpectrum) (ps : DeisoParams) (isSeedPass : Bool)
    (s : DState) (c : Nat) : DState :=
  let s1 :=
    if ps.add_up_intensity then
      { s with monoInt := s.monoInt.set c (peakAt spec.peaks c).intensity }
    else s
  tryCharges spec ps isSeedPass s1 c

/-- The working state after the high-intensity seed pass
(`preserve_high_intensity_peaks` is the constant `true` in the source). -/
def seedPassState (spec : MSSpectrum) (ps : DeisoParams) : DState :=
  (highIntensityIndices spec.peaks).foldl
    (passStep spec ps true) (initState spec.peaks.length)

/-- The working state after both passes: the exhaustive pass repeats the
attempt over every peak index in order, starting from the seed-pass
state. -/
def discoverState (spec : MSSpectrum) (ps : DeisoParams) : DState :=
  (List.range spec.peaks.length).foldl
    (passStep spec ps false) (seedPassState spec ps)

/-- State of the output-rewrite loop (`apply changes` in the source):
the peak list being mutated in place, the two annotation columns being
pushed to, and `select_idx`. -/
structure OutState where
  peaks : List Peak
  chargeCol : List Int
  isoCol : List Int
  sel : List Nat
  deriving Repr, DecidableEq

/-- One iteration of the output-rewrite loop, for peak index `i`:
push the annotations, rewrite the intensity under `add_up_intensity`,
then select: an unassigned peak is kept when `keep_only_deisotoped` is
false; otherwise only a peak with recorded charge `z ≠ 0` survives, with
its m/z projected to the singly-charged equivalent under
`make_single_charged`. -/
def outStep (ps : DeisoParams) (ds : DState) (os : OutState) (i : Nat) : OutState :=
  let z : Int := ds.mono.getD i 0
  let chargeCol := if ps.annotate_charge then os.chargeCol ++ [z] else os.chargeCol
  let isoCol :=
    if ps.annotate_iso_peak_count then os.isoCol ++ [(ds.isoCount.getD i 1 : Int)]
    else os.isoCol
  let pk := os.peaks.getD i default
  let peaks1 :=
    if ps.add_up_intensity then os.peaks.set i { pk with intensity := ds.monoInt.getD i 0 }
    else os.peaks
  if !ps.keep_only_deisotoped && decide (ds.features.getD i (-1) < 0) then
    { peaks := peaks1, chargeCol := chargeCol, isoCol := isoCol, sel := os.sel ++ [i] }
  else if z = 0 then
    { peaks := peaks1, chargeCol := chargeCol, isoCol := isoCol, sel := os.sel }
  else
    let pk1 := peaks1.getD i default
    let peaks2 :=
      if ps.make_single_charged then
        peaks1.set i { pk1 with mz := pk1.mz * (z : ℚ) - ((z : ℚ) - 1) * protonMassU }
      else peaks1
    { peaks := peaks2, chargeCol := chargeCol, isoCol := isoCol, sel := os.sel ++ [i] }

/-- The full output-rewrite loop over all peak indices. -/
def outLoopState (spec : MSSpectrum) (ps : DeisoParams) : OutState :=
  (List.range spec.peaks.length).foldl (outStep ps (discoverState spec ps))
    { peaks := spec.peaks, chargeCol := [], isoCol := [], sel := [] }

/-- Preservation override 1: every member of the high-intensity subset is
appended to `select_idx` unless already selected. -/
def highPreserve (highIdx : List Nat) (sel : List Nat) : List Nat :=
  highIdx.foldl (fun sel j => if j ∈ sel then sel else sel ++ [j]) sel

/-- Preservation override 2 (`preserve_low_mz_peaks_threshold > 0.0` is
always true for the constant 154.0): scan the (already rewritten) peak
list from index 0, force-keep any peak whose current m/z is below the
threshold, and stop at the first peak at or above it.  Fuel counts the
remaining indices (`fuel = size - i`). -/
def lowMzGo (peaks : List Peak) : Nat → Nat → List Nat → List Nat
  | 0, _, sel => sel
  | fuel + 1, i, sel =>
    if (peaks.getD i default).mz < preserveLowMzThreshold then
      lowMzGo peaks fuel (i + 1) (if i ∈ sel then sel else sel ++ [i])
    else sel

/-- The final selected index set: the output-loop selection followed by
the two preservation overrides. -/
def selectIndices (spec : MSSpectrum) (ps : DeisoParams) : List Nat :=
  let os := outLoopState spec ps
  lowMzGo os.peaks os.peaks.length 0
    (highPreserve (highIntensityIndices spec.peaks) os.sel)

/-- The output spectrum: peak list plus named integer data arrays. -/
structure SpecOut where
  peaks : List Peak
  intArrays : List (String × List Int)
  deriving Repr, DecidableEq

/-- Subset rows of the rewritten peak list and of every data array
(`spec.select(select_idx)` subsets peaks and arrays in lock-step); a row
is one peak together with its entry in every column. -/
def selectRows (peaks : List Peak) (cols : List (String × List Int)) (sel : List Nat) :
    List (Peak × List Int) :=
  sel.map (fun i => (peaks.getD i default, cols.map (fun col => col.2.getD i 0)))

/-- Rebuild the named columns from sorted rows. -/
def outColumns (names : List String) (rows : List (Peak × List Int)) :
    List (String × List Int) :=
  names.enum.map (fun kn => (kn.2, rows.map (fun r => r.2.getD kn.1 0)))

/-- The whole routine after the argument check: annotation-array
creation, the empty-spectrum early return, both discovery passes, the
output rewrite, selection and the final `sortByPosition` (modelled as a
stable insertion sort on m/z, keeping the data arrays in lock-step). -/
def deisoRun (spec : MSSpectrum) (ps : DeisoParams) : SpecOut :=
  if spec.peaks.isEmpty then
    { peaks := spec.peaks
      intArrays := spec.intArrays ++
        (if ps.annotate_charge then [("charge", [])] else []) ++
        (if ps.annotate_iso_peak_count then [("iso_peak_count", [])] else []) }
  else
    let os := outLoopState spec ps
    let cols := spec.intArrays ++
      (if ps.annotate_charge then [("charge", os.chargeCol)] else []) ++
      (if ps.annotate_iso_peak_count then [("iso_peak_count", os.isoCol)] else [])
    let rows := List.insertionSort (fun a b => a.1.mz ≤ b.1.mz)
      (selectRows os.peaks cols (selectIndices spec ps))
    { peaks := rows.map Prod.fst
      intArrays := outColumns (cols.map Prod.fst) rows }

/-- The message of the `Exception::IllegalArgument` thrown by the
argument check. -/
def illegalIsoMsg : String :=
  "Minimum/maximum number of isotopic peaks must be at least 2 (and min_isopeaks <= max_isopeaks)."

/-- `Deisotoper::deisotopeAndSingleCharge`: the argument check
`min_isopeaks < 2 || max_isopeaks < 2 || min_isopeaks > max_isopeaks`
throws before anything else happens; otherwise the whole routine runs. -/
def deisotopeAndSingleCharge (spec : MSSpectrum) (ps : DeisoParams) :
    Except String SpecOut :=
  if ps.min_isopeaks < 2 ∨ ps.max_isopeaks < 2 ∨ ps.max_isopeaks < ps.min_isopeaks then
    .error illegalIsoMsg
  else
    .ok (deisoRun spec ps)

/-- The source's validity condition on the isotope-count parameters. -/
def validParams (ps : DeisoParams) : Prop :=
  2 ≤ ps.min_isopeaks ∧ 2 ≤ ps.max_isopeaks ∧ ps.min_isopeaks ≤ ps.max_isopeaks

instance (ps : DeisoParams) : Decidable (validParams ps) := by
  unfold validParams; infer_instance

/-- The sortedness precondition `spec.isSorted()`: non-decreasing m/z. -/
def sortedByMz (peaks : List Peak) : Prop :=
  peaks.Pairwise (fun a b => a.mz ≤ b.mz)

instance (peaks : List Peak) : Decidable (sortedByMz peaks) := by
  unfold sortedByMz; infer_instance

/-- Whether one charge hypothesis for one seed peak would be accepted:
not pruned by the precursor mass, and the extension run ends with
`has_min_isopeaks` true.  This is exactly the acceptance condition of
the body of the charge loop, evaluated on the (state-independent)
extension search. -/
def chargeViable (spec : MSSpectrum) (ps : DeisoParams) (isSeedPass : Bool)
    (c : Nat) (q : Int) : Bool :=
  let currentMz := (peakAt spec.peaks c).mz
  let tolDa := tolDaltonFor ps currentMz
  !precursorPrunes spec tolDa currentMz q &&
    (extendGo spec.peaks ps isSeedPass currentMz tolDa q (ps.max_isopeaks - 1) 1 [c]).2

/-! ### Concrete inputs used by counterexamples and witnesses -/

/-- Baseline parameter record: absolute tolerance 0.1 Da, charge range
[1,1], isotope run length exactly 2, all rewriting and annotation off. -/
def basePs : DeisoParams :=
  { fragment_tolerance := 1 / 10
    fragment_unit_ppm := false
    min_charge := 1
    max_charge := 1
    keep_only_deisotoped := false
    min_isopeaks := 2
    max_isopeaks := 2
    make_single_charged := false
    annotate_charge := false
    annotate_iso_peak_count := false
    use_decreasing_model := false
    start_intensity_check := 2
    add_up_intensity := false }

/-- Three sorted peaks: a strong seed at 100, a weaker peak 0.05 Da
above it, and a peak exactly one C13-C12 mass difference above the seed.
Both the seed (via distance 0) and the middle peak (via distance 0.05,
within the 0.1 Da tolerance) can reach the third peak at charge 1. -/
def exC1spec : MSSpectrum :=
  { peaks := [⟨100, 1000⟩, ⟨100 + 1 / 20, 900⟩, ⟨100 + c13c12MassDiffU, 500⟩] }

/-- Two sorted peaks one C13-C12 mass difference apart; the seed pass
accepts them as a charge-1 pair. -/
def exC2spec : MSSpectrum :=
  { peaks := [⟨100, 1000⟩, ⟨100 + c13c12MassDiffU, 500⟩] }

/-- Parameters for the accumulated-intensity example: as `basePs` but
with `add_up_intensity` on. -/
def exC2ps : DeisoParams := { basePs with add_up_intensity := true }

/-- Two sorted peaks half a C13-C12 mass difference apart (a charge-2
pair), both far below the 154.0 low-mass threshold. -/
def exC3spec : MSSpectrum :=
  { peaks := [⟨100, 1000⟩, ⟨100 + c13c12MassDiffU / 2, 500⟩] }

/-- Parameters for the low-mass preservation example: charge range
[2,2], tolerance 0.01 Da, `make_single_charged` on. -/
def exC3ps : DeisoParams :=
  { basePs with
    fragment_tolerance := 1 / 100
    min_charge := 2
    max_charge := 2
    make_single_charged := true }

/-- The spectrum of the spec's first scenario:
[(100.0, 1000), (100.50, 50), (101.0, 900)]. -/
def exC4spec : MSSpectrum :=
  { peaks := [⟨100, 1000⟩, ⟨201 / 2, 50⟩, ⟨101, 900⟩] }

/-- The parameters of the spec's first scenario: charge range [1,1],
2..3 isotope peaks, absolute tolerance 0.05 Da; both annotations on so
the output shows the assignment. -/
def exC4ps : DeisoParams :=
  { basePs with
    fragment_tolerance := 1 / 20
    max_isopeaks := 3
    annotate_charge := true
    annotate_iso_peak_count := true }

/-- Two sorted peaks one C13-C12 mass difference apart whose intensity
ratio 1/1000 is below the 0.01 noise bound of the seed pass. -/
def exC7spec : MSSpectrum :=
  { peaks := [⟨100, 1000⟩, ⟨100 + c13c12MassDiffU, 1⟩] }

/-- Parameters for the group-size example: as `basePs` but with
`annotate_iso_peak_count` on. -/
def exC8ps : DeisoParams := { basePs with annotate_iso_peak_count := true }

/-- An empty spectrum carrying one pre-existing integer data array. -/
def exC9spec : MSSpectrum := { peaks := [], intArrays := [("prior", [])] }

/-- An invalid parameter record: `min_isopeaks = 1` violates the
argument check. -/
def exC5ps : DeisoParams := { basePs with min_isopeaks := 1 }

/-! ### Helper lemmas -/

theorem getD_set_self {α : Type} (l : List α) {i : Nat} (h : i < l.length) (a d : α) :
    (l.set i a).getD i d = a := by
  rw [List.getD_eq_getElem?_getD, List.getElem?_set_self h]
  rfl

theorem getD_set_ne {α : Type} (l : List α) {i j : Nat} (h : i ≠ j) (a d : α) :
    (l.set i a).getD j d = l.getD j d := by
  rw [List.getD_eq_getElem?_getD, List.getElem?_set_ne h, ← List.getD_eq_getElem?_getD]

theorem getD_set_cases {α : Type} (l : List α) (i j : Nat) (a d : α) :
    (l.set i a).getD j d = a ∨ (l.set i a).getD j d = l.getD j d := by
  by_cases hij : i = j
  · subst hij
    by_cases hi : i < l.length
    · exact Or.inl (getD_set_self l hi a d)
    · rw [List.set_eq_of_length_le (Nat.le_of_not_lt hi)]
      exact Or.inr rfl
  · exact Or.inr (getD_set_ne l hij a d)

/-- A fold preserves any invariant its step function preserves. -/
theorem foldl_invariant {α β : Type} {R : α → Prop} (f : α → β → α) :
    ∀ (l : List β) (a : α), (∀ a b, R a → R (f a b)) → R a → R (l.foldl f a)
  | [], a, _, ha => ha
  | b :: l, a, hf, ha => by
    rw [List.foldl_cons]
    exact foldl_invariant f l (f a b) hf (hf a b ha)

theorem claimExtensions_nil (v : Int) (fs : List Int) : claimExtensions [] v fs = fs := rfl

theorem claimExtensions_cons (x : Nat) (xs : List Nat) (v : Int) (fs : List Int) :
    claimExtensions (x :: xs) v fs = claimExtensions xs v (fs.set x v) := rfl

theorem claimExtensions_length (v : Int) :
    ∀ (exts : List Nat) (fs : List Int), (claimExtensions exts v fs).length = fs.length
  | [], fs => rfl
  | x :: xs, fs => by
    rw [claimExtensions_cons, claimExtensions_length v xs, List.length_set]

theorem claimExtensions_getD (v : Int) :
    ∀ (exts : List Nat) (fs : List Int) (j : Nat),
      (claimExtensions exts v fs).getD j (-1) =
        if j ∈ exts ∧ j < fs.length then v else fs.getD j (-1)
  | [], fs, j => by simp [claimExtensions_nil]
  | x :: xs, fs, j => by
    rw [claimExtensions_cons, claimExtensions_getD v xs, List.length_set]
    by_cases hlen : j < fs.length
    · by_cases hmem : j ∈ xs
      · rw [if_pos ⟨hmem, hlen⟩, if_pos ⟨List.mem_cons_of_mem x hmem, hlen⟩]
      · rw [if_neg (fun h => hmem h.1)]
        by_cases hx : j = x
        · subst hx
          rw [getD_set_self fs hlen, if_pos ⟨List.mem_cons_self j xs, hlen⟩]
        · rw [getD_set_ne fs (fun h => hx h.symm), if_neg ?_]
          intro h
          rcases List.mem_cons.mp h.1 with h1 | h1
          · exact hx h1
          · exact hmem h1
    · rw [if_neg (fun h => hlen h.2), if_neg (fun h => hlen h.2)]
      by_cases hx : x < fs.length
      · by_cases hxj : x = j
        · subst hxj; exact absurd hx hlen
        · exact getD_set_ne fs hxj v (-1)
      · rw [List.set_eq_of_length_le (Nat.le_of_not_lt hx)]

theorem findNearest_lt_length (peaks : List Peak) (target tol : ℚ) (p : Nat)
    (h : findNearest peaks target tol = some p) : p < peaks.length := by
  unfold findNearest at h
  have key : ∀ (l : List (Nat × Peak)) (acc : Option (Nat × Peak)) (ip : Nat × Peak),
      l.foldl (fun acc ip =>
        match acc with
        | none => some ip
        | some jp => if |ip.2.mz - target| < |jp.2.mz - target| then some ip else acc)
        acc = some ip → ip ∈ l ∨ acc = some ip := by
    intro l
    induction l with
    | nil => intro acc ip h; exact Or.inr h
    | cons x xs ih =>
      intro acc ip h
      rw [List.foldl_cons] at h
      rcases ih _ ip h with hmem | hstep
      · exact Or.inl (List.mem_cons_of_mem x hmem)
      · match acc, hstep with
        | none, hstep =>
          simp only [] at hstep
          exact Or.inl (by rw [← Option.some.inj hstep]; exact List.mem_cons_self x xs)
        | some jp, hstep =>
          simp only [] at hstep
          split at hstep
          · exact Or.inl (by rw [← Option.some.inj hstep]; exact List.mem_cons_self x xs)
          · exact Or.inr hstep
  revert h
  split
  · intro h; exact absurd h (by simp)
  · next ip heq =>
    intro h
    rcases key _ _ _ heq with hmem | habs
    · have := List.fst_lt_of_mem_enum hmem
      split at h
      · exact Option.some.inj h ▸ this
      · exact absurd h (by simp)
    · exact absurd habs (by simp)

theorem extendGo_zero (peaks : List Peak) (ps : DeisoParams) (b : Bool) (mz tol : ℚ)
    (q : Int) (i : Nat) (exts : List Nat) :
    extendGo peaks ps b mz tol q 0 i exts = (exts, true) := rfl

theorem extendGo_succ (peaks : List Peak) (ps : DeisoParams) (b : Bool) (mz tol : ℚ)
    (q : Int) (fuel i : Nat) (exts : List Nat) :
    extendGo peaks ps b mz tol q (fuel + 1) i exts =
      match findNearest peaks (mz + (i : ℚ) * c13c12MassDiffU / (q : ℚ)) tol with
      | none => (exts, decide (ps.min_isopeaks ≤ i))
      | some p =>
        if ps.use_decreasing_model && decide (ps.start_intensity_check ≤ i)
            && decide ((peakAt peaks (exts.getLastD 0)).intensity
              < (peakAt peaks p).intensity) then
          (exts, decide (ps.min_isopeaks ≤ i))
        else if i == 1 && decide ((10 : ℚ)
            < (peakAt peaks p).intensity / (peakAt peaks (exts.getLastD 0)).intensity) then
          (exts, decide (ps.min_isopeaks ≤ i))
        else if b && i == 1 && decide ((peakAt peaks p).intensity
            / (peakAt peaks (exts.getLastD 0)).intensity < 1 / 100) then
          (exts, decide (ps.min_isopeaks ≤ i))
        else
          extendGo peaks ps b mz tol q fuel (i + 1) (exts ++ [p]) := rfl

theorem extendGo_mem (peaks : List Peak) (ps : DeisoParams) (b : Bool) (mz tol : ℚ)
    (q : Int) :
    ∀ (fuel i : Nat) (exts : List Nat) (x : Nat), x ∈ exts →
      x ∈ (extendGo peaks ps b mz tol q fuel i exts).1
  | 0, _, _, _, hx => hx
  | fuel + 1, i, exts, x, hx => by
    rw [extendGo_succ]
    cases hfn : findNearest peaks (mz + (i : ℚ) * c13c12MassDiffU / (q : ℚ)) tol with
    | none => exact hx
    | some p =>
      dsimp only
      split
      · exact hx
      · split
        · exact hx
        · split
          · exact hx
          · exact extendGo_mem peaks ps b mz tol q fuel (i + 1) (exts ++ [p]) x
              (List.mem_append.mpr (Or.inl hx))

theorem extendGo_elem (peaks : List Peak) (ps : DeisoParams) (b : Bool) (mz tol : ℚ)
    (q : Int) :
    ∀ (fuel i : Nat) (exts : List Nat) (x : Nat),
      x ∈ (extendGo peaks ps b mz tol q fuel i exts).1 →
      x ∈ exts ∨ x < peaks.length
  | 0, _, _, _, hx => Or.inl hx
  | fuel + 1, i, exts, x, hx => by
    rw [extendGo_succ] at hx
    revert hx
    cases hfn : findNearest peaks (mz + (i : ℚ) * c13c12MassDiffU / (q : ℚ)) tol with
    | none => exact fun hx => Or.inl hx
    | some p =>
      dsimp only
      intro hx
      have hp : p < peaks.length := findNearest_lt_length peaks _ tol p hfn
      revert hx
      split
      · exact fun hx => Or.inl hx
      · split
        · exact fun hx => Or.inl hx
        · split
          · exact fun hx => Or.inl hx
          · intro hx
            rcases extendGo_elem peaks ps b mz tol q fuel (i + 1) (exts ++ [p]) x hx with
              hm | hlt
            · rcases List.mem_append.mp hm with hm1 | hm1
              · exact Or.inl hm1
              · exact Or.inr (by rw [List.mem_singleton.mp hm1]; exact hp)
            · exact Or.inr hlt

theorem extendGo_length_le (peaks : List Peak) (ps : DeisoParams) (b : Bool) (mz tol : ℚ)
    (q : Int) :
    ∀ (fuel i : Nat) (exts : List Nat),
      (extendGo peaks ps b mz tol q fuel i exts).1.length ≤ exts.length + fuel
  | 0, _, exts => Nat.le_refl _
  | fuel + 1, i, exts => by
    rw [extendGo_succ]
    cases hfn : findNearest peaks (mz + (i : ℚ) * c13c12MassDiffU / (q : ℚ)) tol with
    | none => exact Nat.le_add_right _ _
    | some p =>
      dsimp only
      split
      · exact Nat.le_add_right _ _
      · split
        · exact Nat.le_add_right _ _
        · split
          · exact Nat.le_add_right _ _
          · have := extendGo_length_le peaks ps b mz tol q fuel (i + 1) (exts ++ [p])
            rw [List.length_append] at this
            have hone : ([p] : List Nat).length = 1 := rfl
            omega

theorem extendGo_length_ge (peaks : List Peak) (ps : DeisoParams) (b : Bool) (mz tol : ℚ)
    (q : Int) :
    ∀ (fuel i : Nat) (exts : List Nat),
      exts.length ≤ (extendGo peaks ps b mz tol q fuel i exts).1.length
  | 0, _, exts => Nat.le_refl _
  | fuel + 1, i, exts => by
    rw [extendGo_succ]
    cases hfn : findNearest peaks (mz + (i : ℚ) * c13c12MassDiffU / (q : ℚ)) tol with
    | none => exact Nat.le_refl _
    | some p =>
      dsimp only
      split
      · exact Nat.le_refl _
      · split
        · exact Nat.le_refl _
        · split
          · exact Nat.le_refl _
          · have := extendGo_length_ge peaks ps b mz tol q fuel (i + 1) (exts ++ [p])
            rw [List.length_append] at this
            omega

theorem extendGo_min_of_true (peaks : List Peak) (ps : DeisoParams) (b : Bool) (mz tol : ℚ)
    (q : Int) :
    ∀ (fuel i : Nat) (exts : List Nat),
      exts.length = i →
      (extendGo peaks ps b mz tol q fuel i exts).2 = true →
      ps.min_isopeaks ≤ (extendGo peaks ps b mz tol q fuel i exts).1.length ∨
        (extendGo peaks ps b mz tol q fuel i exts).1.length = exts.length + fuel
  | 0, _, exts, _, _ => Or.inr rfl
  | fuel + 1, i, exts, hlen, htrue => by
    rw [extendGo_succ] at htrue ⊢
    revert htrue
    cases hfn : findNearest peaks (mz + (i : ℚ) * c13c12MassDiffU / (q : ℚ)) tol with
    | none =>
      intro htrue
      exact Or.inl (by rw [hlen]; exact of_decide_eq_true htrue)
    | some p =>
      dsimp only
      split
      · intro htrue
        exact Or.inl (by rw [hlen]; exact of_decide_eq_true htrue)
      · split
        · intro htrue
          exact Or.inl (by rw [hlen]; exact of_decide_eq_true htrue)
        · split
          · intro htrue
            exact Or.inl (by rw [hlen]; exact of_decide_eq_true htrue)
          · intro htrue
            have hlen' : (exts ++ [p]).length = i + 1 := by
              rw [List.length_append, hlen]; rfl
            rcases extendGo_min_of_true peaks ps b mz tol q fuel (i + 1) (exts ++ [p])
              hlen' htrue with hm | he
            · exact Or.inl hm
            · right
              rw [he, List.length_append, hlen]
              have hone : ([p] : List Nat).length = 1 := rfl
              omega

theorem tryCharge_of_claimed (spec : MSSpectrum) (ps : DeisoParams) (b : Bool)
    (s : DState) (c : Nat) (q : Int) (h : ¬s.features.getD c (-1) = -1) :
    tryCharge spec ps b s c q = s := by
  unfold tryCharge
  rw [if_neg h]

theorem tryCharge_shape (spec : MSSpectrum) (ps : DeisoParams) (b : Bool)
    (s : DState) (c : Nat) (q : Int) :
    (tryCharge spec ps b s c q).mono.length = s.mono.length ∧
    (tryCharge spec ps b s c q).features.length = s.features.length ∧
    (tryCharge spec ps b s c q).monoInt.length = s.monoInt.length ∧
    (tryCharge spec ps b s c q).isoCount.length = s.isoCount.length ∧
    (0 ≤ s.featNum → 0 ≤ (tryCharge spec ps b s c q).featNum) := by
  unfold tryCharge
  split
  · dsimp only
    split_ifs <;>
      refine ⟨?_, ?_, ?_, ?_, fun h => ?_⟩ <;>
      first
        | rfl
        | (simp [List.length_set, claimExtensions_length]; try omega)
        | omega
  · exact ⟨rfl, rfl, rfl, rfl, fun h => h⟩

theorem tryCharge_stable (spec : MSSpectrum) (ps : DeisoParams) (b : Bool)
    (s : DState) (c : Nat) (q : Int) (d : Nat)
    (hnn : 0 ≤ s.featNum) (hd : ¬s.features.getD d (-1) = -1) :
    (tryCharge spec ps b s c q).mono.getD d 0 = s.mono.getD d 0 ∧
    (tryCharge spec ps b s c q).isoCount.getD d 1 = s.isoCount.getD d 1 ∧
    ¬(tryCharge spec ps b s c q).features.getD d (-1) = -1 := by
  by_cases hc : s.features.getD c (-1) = -1
  · have hcd : c ≠ d := fun h => hd (h ▸ hc)
    unfold tryCharge
    rw [if_pos hc]
    dsimp only
    split_ifs <;>
      refine ⟨?_, ?_, ?_⟩ <;>
      (try simp only [getD_set_ne _ hcd]) <;>
      try rfl
    all_goals try exact hd
    all_goals rw [claimExtensions_getD]
    all_goals split
    all_goals try exact hd
    all_goals omega
  · rw [tryCharge_of_claimed spec ps b s c q hc]
    exact ⟨rfl, rfl, hd⟩

theorem tryCharges_shape (spec : MSSpectrum) (ps : DeisoParams) (b : Bool)
    (s : DState) (c : Nat) :
    (tryCharges spec ps b s c).mono.length = s.mono.length ∧
    (tryCharges spec ps b s c).features.length = s.features.length ∧
    (tryCharges spec ps b s c).monoInt.length = s.monoInt.length ∧
    (tryCharges spec ps b s c).isoCount.length = s.isoCount.length ∧
    (0 ≤ s.featNum → 0 ≤ (tryCharges spec ps b s c).featNum) := by
  unfold tryCharges
  have := foldl_invariant
    (fun t q => tryCharge spec ps b t c q)
    (chargesDesc ps.min_charge ps.max_charge) s
    (R := fun t =>
      t.mono.length = s.mono.length ∧ t.features.length = s.features.length ∧
      t.monoInt.length = s.monoInt.length ∧ t.isoCount.length = s.isoCount.length ∧
      (0 ≤ s.featNum → 0 ≤ t.featNum))
    (fun t q ht => by
      obtain ⟨h1, h2, h3, h4, h5⟩ := ht
      obtain ⟨g1, g2, g3, g4, g5⟩ := tryCharge_shape spec ps b t c q
      exact ⟨g1.trans h1, g2.trans h2, g3.trans h3, g4.trans h4,
        fun h => g5 (h5 h)⟩)
    ⟨rfl, rfl, rfl, rfl, fun h => h⟩
  exact this

theorem passStep_shape (spec : MSSpectrum) (ps : DeisoParams) (b : Bool)
    (s : DState) (c : Nat) :
    (passStep spec ps b s c).mono.length = s.mono.length ∧
    (passStep spec ps b s c).features.length = s.features.length ∧
    (passStep spec ps b s c).monoInt.length = s.monoInt.length ∧
    (passStep spec ps b s c).isoCount.length = s.isoCount.length ∧
    (0 ≤ s.featNum → 0 ≤ (passStep spec ps b s c).featNum) := by
  unfold passStep
  dsimp only
  split
  · obtain ⟨g1, g2, g3, g4, g5⟩ := tryCharges_shape spec ps b
      { s with monoInt := s.monoInt.set c (peakAt spec.peaks c).intensity } c
    exact ⟨g1, g2, g3.trans (List.length_set _ _ _), g4, g5⟩
  · exact tryCharges_shape spec ps b s c

theorem seedPassState_shape (spec : MSSpectrum) (ps : DeisoParams) :
    (seedPassState spec ps).mono.length = spec.peaks.length ∧
    (seedPassState spec ps).features.length = spec.peaks.length ∧
    (seedPassState spec ps).monoInt.length = spec.peaks.length ∧
    (seedPassState spec ps).isoCount.length = spec.peaks.length ∧
    0 ≤ (seedPassState spec ps).featNum := by
  unfold seedPassState
  exact foldl_invariant (passStep spec ps true) (highIntensityIndices spec.peaks)
    (initState spec.peaks.length)
    (R := fun t =>
      t.mono.length = spec.peaks.length ∧ t.features.length = spec.peaks.length ∧
      t.monoInt.length = spec.peaks.length ∧ t.isoCount.length = spec.peaks.length ∧
      0 ≤ t.featNum)
    (fun t c ht => by
      obtain ⟨h1, h2, h3, h4, h5⟩ := ht
      obtain ⟨g1, g2, g3, g4, g5⟩ := passStep_shape spec ps true t c
      exact ⟨g1.trans h1, g2.trans h2, g3.trans h3, g4.trans h4, g5 h5⟩)
    ⟨List.length_replicate _ _, List.length_replicate _ _, List.length_replicate _ _,
      List.length_replicate _ _, le_refl 0⟩

theorem discoverState_shape (spec : MSSpectrum) (ps : DeisoParams) :
    (discoverState spec ps).mono.length = spec.peaks.length ∧
    (discoverState spec ps).features.length = spec.peaks.length ∧
    (discoverState spec ps).monoInt.length = spec.peaks.length ∧
    (discoverState spec ps).isoCount.length = spec.peaks.length ∧
    0 ≤ (discoverState spec ps).featNum := by
  unfold discoverState
  exact foldl_invariant (passStep spec ps false) (List.range spec.peaks.length)
    (seedPassState spec ps)
    (R := fun t =>
      t.mono.length = spec.peaks.length ∧ t.features.length = spec.peaks.length ∧
      t.monoInt.length = spec.peaks.length ∧ t.isoCount.length = spec.peaks.length ∧
      0 ≤ t.featNum)
    (fun t c ht => by
      obtain ⟨h1, h2, h3, h4, h5⟩ := ht
      obtain ⟨g1, g2, g3, g4, g5⟩ := passStep_shape spec ps false t c
      exact ⟨g1.trans h1, g2.trans h2, g3.trans h3, g4.trans h4, g5 h5⟩)
    (seedPassState_shape spec ps)

theorem passStep_stable (spec : MSSpectrum) (ps : DeisoParams) (b : Bool)
    (s : DState) (c : Nat) (d : Nat)
    (hnn : 0 ≤ s.featNum) (hd : ¬s.features.getD d (-1) = -1) :
    (passStep spec ps b s c).mono.getD d 0 = s.mono.getD d 0 ∧
    (passStep spec ps b s c).isoCount.getD d 1 = s.isoCount.getD d 1 ∧
    ¬(passStep spec ps b s c).features.getD d (-1) = -1 ∧
    0 ≤ (passStep spec ps b s c).featNum := by
  have key : ∀ (t : DState),
      t.mono.getD d 0 = s.mono.getD d 0 → t.isoCount.getD d 1 = s.isoCount.getD d 1 →
      ¬t.features.getD d (-1) = -1 → 0 ≤ t.featNum →
      (tryCharges spec ps b t c).mono.getD d 0 = s.mono.getD d 0 ∧
      (tryCharges spec ps b t c).isoCount.getD d 1 = s.isoCount.getD d 1 ∧
      ¬(tryCharges spec ps b t c).features.getD d (-1) = -1 ∧
      0 ≤ (tryCharges spec ps b t c).featNum := by
    intro t h1 h2 h3 h4
    unfold tryCharges
    exact foldl_invariant (fun t q => tryCharge spec ps b t c q)
      (chargesDesc ps.min_charge ps.max_charge) t
      (R := fun t =>
        t.mono.getD d 0 = s.mono.getD d 0 ∧ t.isoCount.getD d 1 = s.isoCount.getD d 1 ∧
        ¬t.features.getD d (-1) = -1 ∧ 0 ≤ t.featNum)
      (fun t q ht => by
        obtain ⟨h1, h2, h3, h4⟩ := ht
        obtain ⟨g1, g2, g3⟩ := tryCharge_stable spec ps b t c q d h4 h3
        obtain ⟨-, -, -, -, g5⟩ := tryCharge_shape spec ps b t c q
        exact ⟨g1.trans h1, g2.trans h2, g3, g5 h4⟩)
      ⟨h1, h2, h3, h4⟩
  unfold passStep
  dsimp only
  split
  · exact key { s with monoInt := s.monoInt.set c (peakAt spec.peaks c).intensity }
      rfl rfl hd hnn
  · exact key s rfl rfl hd hnn

theorem tryCharge_not_viable (spec : MSSpectrum) (ps : DeisoParams) (b : Bool)
    (s : DState) (c : Nat) (q : Int)
    (hc : s.features.getD c (-1) = -1)
    (hnv : chargeViable spec ps b c q = false) :
    (tryCharge spec ps b s c q).mono = s.mono ∧
    (tryCharge spec ps b s c q).features = s.features ∧
    (tryCharge spec ps b s c q).featNum = s.featNum := by
  unfold chargeViable at hnv
  dsimp only at hnv
  unfold tryCharge
  rw [if_pos hc]
  dsimp only
  by_cases hpr : precursorPrunes spec (tolDaltonFor ps (peakAt spec.peaks c).mz)
      (peakAt spec.peaks c).mz q = true
  · rw [if_pos hpr]
    exact ⟨rfl, rfl, rfl⟩
  · rw [if_neg hpr]
    have hpr' : precursorPrunes spec (tolDaltonFor ps (peakAt spec.peaks c).mz)
        (peakAt spec.peaks c).mz q = false := Bool.eq_false_iff.mpr hpr
    rw [hpr'] at hnv
    simp only [Bool.not_false, Bool.true_and] at hnv
    rw [if_neg (by rw [hnv]; exact Bool.false_ne_true)]
    split
    · exact ⟨rfl, rfl, rfl⟩
    · exact ⟨rfl, rfl, rfl⟩

theorem tryCharge_viable (spec : MSSpectrum) (ps : DeisoParams) (b : Bool)
    (s : DState) (c : Nat) (q : Int)
    (hc : s.features.getD c (-1) = -1) (hnn : 0 ≤ s.featNum)
    (hm : c < s.mono.length) (hf : c < s.features.length)
    (hv : chargeViable spec ps b c q = true) :
    (tryCharge spec ps b s c q).mono.getD c 0 = q ∧
    ¬(tryCharge spec ps b s c q).features.getD c (-1) = -1 := by
  unfold chargeViable at hv
  dsimp only at hv
  rw [Bool.and_eq_true] at hv
  obtain ⟨hpr, hext⟩ := hv
  rw [Bool.not_eq_true'] at hpr
  unfold tryCharge
  rw [if_pos hc]
  dsimp only
  rw [if_neg (by rw [hpr]; exact Bool.false_ne_true)]
  rw [if_pos hext]
  have hcmem : c ∈ (extendGo spec.peaks ps b (peakAt spec.peaks c).mz
      (tolDaltonFor ps (peakAt spec.peaks c).mz) q (ps.max_isopeaks - 1) 1 [c]).1 :=
    extendGo_mem spec.peaks ps b _ _ q _ 1 [c] c (List.mem_singleton.mpr rfl)
  constructor
  · split
    · exact getD_set_self s.mono hm q 0
    · exact getD_set_self s.mono hm q 0
  · split
    · rw [claimExtensions_getD, if_pos ⟨hcmem, hf⟩]
      try dsimp only
      omega
    · rw [claimExtensions_getD, if_pos ⟨hcmem, hf⟩]
      try dsimp only
      omega

theorem foldl_tryCharge_claimed (spec : MSSpectrum) (ps : DeisoParams) (b : Bool)
    (c : Nat) :
    ∀ (L : List Int) (s : DState), ¬s.features.getD c (-1) = -1 →
      L.foldl (fun t q => tryCharge spec ps b t c q) s = s
  | [], _, _ => rfl
  | q :: L, s, h => by
    rw [List.foldl_cons, tryCharge_of_claimed spec ps b s c q h]
    exact foldl_tryCharge_claimed spec ps b c L s h

theorem tryCharges_foldl_find (spec : MSSpectrum) (ps : DeisoParams) (b : Bool)
    (c : Nat) :
    ∀ (L : List Int) (s : DState),
      s.features.getD c (-1) = -1 → 0 ≤ s.featNum →
      c < s.mono.length → c < s.features.length →
      (L.foldl (fun t q => tryCharge spec ps b t c q) s).mono.getD c 0 =
        (L.find? (chargeViable spec ps b c)).getD (s.mono.getD c 0)
  | [], s, _, _, _, _ => by simp [List.find?]
  | q :: L, s, hc, hnn, hm, hf => by
    rw [List.foldl_cons, List.find?_cons]
    by_cases hv : chargeViable spec ps b c q = true
    · rw [hv]
      dsimp only
      obtain ⟨h1, h2⟩ := tryCharge_viable spec ps b s c q hc hnn hm hf hv
      rw [foldl_tryCharge_claimed spec ps b c L _ h2]
      exact h1
    · have hv' : chargeViable spec ps b c q = false := Bool.eq_false_iff.mpr hv
      rw [hv']
      dsimp only
      obtain ⟨g1, g2, g3⟩ := tryCharge_not_viable spec ps b s c q hc hv'
      rw [tryCharges_foldl_find spec ps b c L (tryCharge spec ps b s c q)
        (by rw [g2]; exact hc) (by rw [g3]; exact hnn)
        (by rw [g1]; exact hm) (by rw [g2]; exact hf)]
      rw [g1]

theorem chargesDesc_pairwise (minq maxq : Int) :
    (chargesDesc minq maxq).Pairwise (fun a b => b < a) := by
  unfold chargesDesc
  exact List.Pairwise.map _ (fun a b h => by omega) (List.pairwise_lt_range _)

theorem chargesDesc_mem (minq maxq q : Int) :
    q ∈ chargesDesc minq maxq ↔ minq ≤ q ∧ q ≤ maxq := by
  unfold chargesDesc
  rw [List.mem_map]
  constructor
  · rintro ⟨k, hk, rfl⟩
    rw [List.mem_range] at hk
    omega
  · rintro ⟨h1, h2⟩
    refine ⟨(maxq - q).toNat, ?_, ?_⟩
    · rw [List.mem_range]; omega
    · omega

theorem find_descending_max {p : Int → Bool} :
    ∀ {l : List Int}, l.Pairwise (fun a b => b < a) →
      ∀ {q : Int}, l.find? p = some q → ∀ q' ∈ l, p q' = true → q' ≤ q := by
  intro l
  induction l with
  | nil => intro _ q h; simp [List.find?] at h
  | cons x xs ih =>
    intro hpw q hfind q' hq' hp'
    rw [List.find?_cons] at hfind
    rcases List.pairwise_cons.mp hpw with ⟨hx, hxs⟩
    by_cases hpx : p x = true
    · rw [hpx] at hfind
      dsimp only at hfind
      have hqx : q = x := (Option.some.inj hfind).symm
      subst hqx
      rcases List.mem_cons.mp hq' with rfl | hmem
      · exact le_refl q'
      · exact le_of_lt (hx q' hmem)
    · rw [Bool.eq_false_iff.mpr hpx] at hfind
      dsimp only at hfind
      rcases List.mem_cons.mp hq' with rfl | hmem
      · exact absurd hp' hpx
      · exact ih hxs hfind q' hmem hp'

theorem getD_set_intensity_mz (l : List Peak) (i j : Nat) (v : ℚ) :
    ((l.set i ⟨(l.getD i default).mz, v⟩).getD j default).mz =
      (l.getD j default).mz := by
  by_cases hij : i = j
  · subst hij
    by_cases hi : i < l.length
    · rw [getD_set_self l hi]
    · rw [List.set_eq_of_length_le (Nat.le_of_not_lt hi)]
  · rw [getD_set_ne l hij]

theorem outStep_sel (ps : DeisoParams) (ds : DState) (os : OutState) (i : Nat) :
    (outStep ps ds os i).sel = os.sel ∨ (outStep ps ds os i).sel = os.sel ++ [i] := by
  unfold outStep
  dsimp only
  split_ifs <;> simp

theorem outStep_peaks_length (ps : DeisoParams) (ds : DState) (os : OutState) (i : Nat) :
    (outStep ps ds os i).peaks.length = os.peaks.length := by
  unfold outStep
  dsimp only
  split_ifs <;> simp [List.length_set]

theorem outStep_peaks_mz (ps : DeisoParams) (ds : DState) (os : OutState) (i : Nat)
    (h : ps.make_single_charged = false) (j : Nat) :
    ((outStep ps ds os i).peaks.getD j default).mz = (os.peaks.getD j default).mz := by
  unfold outStep
  dsimp only
  rw [h]
  split_ifs <;>
    first
      | rfl
      | exact getD_set_intensity_mz os.peaks i j _
      | contradiction

theorem outLoop_sel_nodup_bound (ps : DeisoParams) (ds : DState) (os0 : OutState)
    (h0 : os0.sel = []) :
    ∀ n : Nat, (((List.range n).foldl (outStep ps ds) os0).sel.Nodup ∧
      ∀ x ∈ ((List.range n).foldl (outStep ps ds) os0).sel, x < n)
  | 0 => by
    simp only [List.range_zero, List.foldl_nil, h0]
    exact ⟨List.nodup_nil, by simp⟩
  | n + 1 => by
    obtain ⟨ih1, ih2⟩ := outLoop_sel_nodup_bound ps ds os0 h0 n
    rw [List.range_succ, List.foldl_append, List.foldl_cons, List.foldl_nil]
    rcases outStep_sel ps ds ((List.range n).foldl (outStep ps ds) os0) n with h | h
    · rw [h]
      exact ⟨ih1, fun x hx => Nat.lt_succ_of_lt (ih2 x hx)⟩
    · rw [h]
      constructor
      · refine List.Nodup.append ih1 (List.nodup_singleton n) ?_
        intro a ha hb
        rw [List.mem_singleton.mp hb] at ha
        exact absurd (ih2 n ha) (by omega)
      · intro x hx
        rcases List.mem_append.mp hx with hx | hx
        · exact Nat.lt_succ_of_lt (ih2 x hx)
        · rw [List.mem_singleton.mp hx]
          exact Nat.lt_succ_self n

theorem outLoop_peaks_length' (ps : DeisoParams) (ds : DState) (os0 : OutState) :
    ∀ n : Nat, ((List.range n).foldl (outStep ps ds) os0).peaks.length = os0.peaks.length
  | 0 => rfl
  | n + 1 => by
    rw [List.range_succ, List.foldl_append, List.foldl_cons, List.foldl_nil,
      outStep_peaks_length]
    exact outLoop_peaks_length' ps ds os0 n

theorem outLoop_peaks_mz' (ps : DeisoParams) (ds : DState) (os0 : OutState)
    (h : ps.make_single_charged = false) (j : Nat) :
    ∀ n : Nat, (((List.range n).foldl (outStep ps ds) os0).peaks.getD j default).mz =
      (os0.peaks.getD j default).mz
  | 0 => rfl
  | n + 1 => by
    rw [List.range_succ, List.foldl_append, List.foldl_cons, List.foldl_nil,
      outStep_peaks_mz ps ds _ n h j]
    exact outLoop_peaks_mz' ps ds os0 h j n

theorem outLoopState_peaks_length (spec : MSSpectrum) (ps : DeisoParams) :
    (outLoopState spec ps).peaks.length = spec.peaks.length := by
  unfold outLoopState
  exact outLoop_peaks_length' ps (discoverState spec ps) _ spec.peaks.length

theorem outLoopState_peaks_mz (spec : MSSpectrum) (ps : DeisoParams)
    (h : ps.make_single_charged = false) (j : Nat) :
    ((outLoopState spec ps).peaks.getD j default).mz =
      (spec.peaks.getD j default).mz := by
  unfold outLoopState
  exact outLoop_peaks_mz' ps (discoverState spec ps) _ h j spec.peaks.length

theorem outLoopState_sel_nodup_bound (spec : MSSpectrum) (ps : DeisoParams) :
    (outLoopState spec ps).sel.Nodup ∧
      ∀ x ∈ (outLoopState spec ps).sel, x < spec.peaks.length := by
  unfold outLoopState
  exact outLoop_sel_nodup_bound ps (discoverState spec ps) _ rfl spec.peaks.length

theorem updateWindowBest_mem :
    ∀ (acc : List (Int × Nat × ℚ)) (w : Int) (i : Nat) (h : ℚ) (e : Int × Nat × ℚ),
      e ∈ updateWindowBest acc w i h → e ∈ acc ∨ e.2.1 = i
  | [], w, i, h, e, he => by
    unfold updateWindowBest at he
    rw [List.mem_singleton.mp he]
    exact Or.inr rfl
  | a :: rest, w, i, h, e, he => by
    unfold updateWindowBest at he
    split_ifs at he
    · rcases List.mem_cons.mp he with rfl | hm
      · exact Or.inr rfl
      · exact Or.inl (List.mem_cons_of_mem a hm)
    · exact Or.inl he
    · rcases List.mem_cons.mp he with rfl | hm
      · exact Or.inl (List.mem_cons_self _ _)
      · rcases updateWindowBest_mem rest w i h e hm with hin | hi
        · exact Or.inl (List.mem_cons_of_mem a hin)
        · exact Or.inr hi

theorem highIntensityIndices_lt (peaks : List Peak) :
    ∀ j ∈ highIntensityIndices peaks, j < peaks.length := by
  unfold highIntensityIndices
  cases peaks with
  | nil => simp
  | cons p0 rest =>
    intro j hj
    rw [List.mem_map] at hj
    obtain ⟨e, he, rfl⟩ := hj
    have key : ∀ (l : List (Nat × Peak)) (acc : List (Int × Nat × ℚ)),
        (∀ e ∈ acc, e.2.1 < (p0 :: rest).length) →
        (∀ ip ∈ l, ip.1 < (p0 :: rest).length) →
        ∀ e ∈ l.foldl (fun acc ip =>
            updateWindowBest acc ⌊(ip.2.mz - p0.mz) / 4⌋ ip.1 ip.2.intensity) acc,
          e.2.1 < (p0 :: rest).length := by
      intro l
      induction l with
      | nil => intro acc hacc _ e he; exact hacc e he
      | cons x xs ih =>
        intro acc hacc hl e he
        rw [List.foldl_cons] at he
        refine ih _ ?_ (fun ip hip => hl ip (List.mem_cons_of_mem x hip)) e he
        intro f hf
        rcases updateWindowBest_mem acc _ _ _ f hf with hm | hi
        · exact hacc f hm
        · rw [hi]
          exact hl x (List.mem_cons_self x xs)
    exact key (p0 :: rest).enum [] (by simp)
      (fun ip hip => List.fst_lt_of_mem_enum hip) e he

theorem highPreserve_nil (sel : List Nat) : highPreserve [] sel = sel := rfl

theorem highPreserve_cons (j : Nat) (rest sel : List Nat) :
    highPreserve (j :: rest) sel =
      highPreserve rest (if j ∈ sel then sel else sel ++ [j]) := rfl

theorem highPreserve_mem_of_mem :
    ∀ (highIdx sel : List Nat) (x : Nat), x ∈ sel → x ∈ highPreserve highIdx sel
  | [], _, _, hx => hx
  | j :: rest, sel, x, hx => by
    rw [highPreserve_cons]
    apply highPreserve_mem_of_mem rest
    split_ifs with h
    · exact hx
    · exact List.mem_append.mpr (Or.inl hx)

theorem highPreserve_nodup_bound (n : Nat) :
    ∀ (highIdx sel : List Nat), sel.Nodup → (∀ x ∈ sel, x < n) →
      (∀ j ∈ highIdx, j < n) →
      (highPreserve highIdx sel).Nodup ∧ ∀ x ∈ highPreserve highIdx sel, x < n
  | [], _, h1, h2, _ => ⟨h1, h2⟩
  | j :: rest, sel, h1, h2, h3 => by
    rw [highPreserve_cons]
    by_cases hj : j ∈ sel
    · rw [if_pos hj]
      exact highPreserve_nodup_bound n rest sel h1 h2
        (fun x hx => h3 x (List.mem_cons_of_mem j hx))
    · rw [if_neg hj]
      refine highPreserve_nodup_bound n rest (sel ++ [j]) ?_ ?_
        (fun x hx => h3 x (List.mem_cons_of_mem j hx))
      · refine List.Nodup.append h1 (List.nodup_singleton j) ?_
        intro a ha hb
        rw [List.mem_singleton.mp hb] at ha
        exact hj ha
      · intro x hx
        rcases List.mem_append.mp hx with hx | hx
        · exact h2 x hx
        · rw [List.mem_singleton.mp hx]
          exact h3 j (List.mem_cons_self j rest)

theorem lowMzGo_mem_of_mem (peaks : List Peak) :
    ∀ (fuel i : Nat) (sel : List Nat) (x : Nat), x ∈ sel → x ∈ lowMzGo peaks fuel i sel
  | 0, _, _, _, hx => hx
  | fuel + 1, i, sel, x, hx => by
    unfold lowMzGo
    split
    · apply lowMzGo_mem_of_mem peaks fuel (i + 1)
      split_ifs with h
      · exact hx
      · exact List.mem_append.mpr (Or.inl hx)
    · exact hx

theorem lowMzGo_reaches (peaks : List Peak) :
    ∀ (fuel i0 : Nat) (sel : List Nat) (tgt : Nat),
      i0 ≤ tgt → tgt < i0 + fuel →
      (∀ j, i0 ≤ j → j ≤ tgt → (peaks.getD j default).mz < preserveLowMzThreshold) →
      tgt ∈ lowMzGo peaks fuel i0 sel
  | 0, i0, sel, tgt, h1, h2, _ => absurd h2 (by omega)
  | fuel + 1, i0, sel, tgt, h1, h2, h3 => by
    unfold lowMzGo
    rw [if_pos (h3 i0 (le_refl i0) h1)]
    by_cases heq : tgt = i0
    · subst heq
      apply lowMzGo_mem_of_mem
      split_ifs with h
      · exact h
      · exact List.mem_append.mpr (Or.inr (List.mem_singleton.mpr rfl))
    · exact lowMzGo_reaches peaks fuel (i0 + 1) _ tgt (by omega) (by omega)
        (fun j hj1 hj2 => h3 j (by omega) hj2)

theorem lowMzGo_nodup_bound (peaks : List Peak) (n : Nat) :
    ∀ (fuel i : Nat) (sel : List Nat), i + fuel ≤ n → sel.Nodup →
      (∀ x ∈ sel, x < n) →
      (lowMzGo peaks fuel i sel).Nodup ∧ ∀ x ∈ lowMzGo peaks fuel i sel, x < n
  | 0, i, sel, _, h1, h2 => ⟨h1, h2⟩
  | fuel + 1, i, sel, hn, h1, h2 => by
    unfold lowMzGo
    split
    · by_cases hmem : i ∈ sel
      · rw [if_pos hmem]
        exact lowMzGo_nodup_bound peaks n fuel (i + 1) sel (by omega) h1 h2
      · rw [if_neg hmem]
        refine lowMzGo_nodup_bound peaks n fuel (i + 1) (sel ++ [i]) (by omega) ?_ ?_
        · refine List.Nodup.append h1 (List.nodup_singleton i) ?_
          intro a ha hb
          rw [List.mem_singleton.mp hb] at ha
          exact hmem ha
        · intro x hx
          rcases List.mem_append.mp hx with hx | hx
          · exact h2 x hx
          · rw [List.mem_singleton.mp hx]
            omega
    · exact ⟨h1, h2⟩

theorem sorted_getD_mono (peaks : List Peak) (h : sortedByMz peaks) {j i : Nat}
    (hji : j ≤ i) (hi : i < peaks.length) :
    (peaks.getD j default).mz ≤ (peaks.getD i default).mz := by
  rcases Nat.lt_or_ge j i with hlt | hge
  · have hj : j < peaks.length := lt_trans hlt hi
    rw [List.getD_eq_getElem _ _ hj, List.getD_eq_getElem _ _ hi]
    have := List.pairwise_iff_get.mp h ⟨j, hj⟩ ⟨i, hi⟩ hlt
    simpa using this
  · have heq : j = i := le_antisymm hji hge
    rw [heq]

theorem selectIndices_nodup_bound (spec : MSSpectrum) (ps : DeisoParams) :
    (selectIndices spec ps).Nodup ∧ ∀ x ∈ selectIndices spec ps, x < spec.peaks.length := by
  unfold selectIndices
  dsimp only
  obtain ⟨h1, h2⟩ := outLoopState_sel_nodup_bound spec ps
  obtain ⟨g1, g2⟩ := highPreserve_nodup_bound spec.peaks.length
    (highIntensityIndices spec.peaks) (outLoopState spec ps).sel h1 h2
    (highIntensityIndices_lt spec.peaks)
  have hlen := outLoopState_peaks_length spec ps
  exact lowMzGo_nodup_bound (outLoopState spec ps).peaks spec.peaks.length
    (outLoopState spec ps).peaks.length 0 _ (by omega) g1 g2

theorem deisoRun_length_le (spec : MSSpectrum) (ps : DeisoParams) :
    (deisoRun spec ps).peaks.length ≤ spec.peaks.length := by
  unfold deisoRun
  split
  · exact le_refl _
  · dsimp only
    rw [List.length_map, List.length_insertionSort]
    unfold selectRows
    rw [List.length_map]
    obtain ⟨h1, h2⟩ := selectIndices_nodup_bound spec ps
    have hcard : (selectIndices spec ps).toFinset.card = (selectIndices spec ps).length :=
      List.toFinset_card_of_nodup h1
    have hsub : (selectIndices spec ps).toFinset ⊆ Finset.range spec.peaks.length := by
      intro x hx
      rw [List.mem_toFinset] at hx
      rw [Finset.mem_range]
      exact h2 x hx
    have hle := Finset.card_le_card hsub
    rw [hcard, Finset.card_range] at hle
    exact hle

theorem mem_map_fst_selectRows (peaks : List Peak) (cols : List (String × List Int))
    (sel : List Nat) (i : Nat) (h : i ∈ sel) :
    peaks.getD i default ∈ (selectRows peaks cols sel).map Prod.fst := by
  unfold selectRows
  rw [List.map_map]
  exact List.mem_map.mpr ⟨i, h, rfl⟩

theorem deisoRun_mem_of_selected (spec : MSSpectrum) (ps : DeisoParams) (i : Nat)
    (hne : ¬spec.peaks.isEmpty = true) (hsel : i ∈ selectIndices spec ps) :
    (outLoopState spec ps).peaks.getD i default ∈ (deisoRun spec ps).peaks := by
  unfold deisoRun
  rw [if_neg hne]
  dsimp only
  refine (List.Perm.mem_iff ((List.perm_insertionSort _ _).map Prod.fst)).mpr ?_
  exact mem_map_fst_selectRows _ _ _ i hsel

section ClaimTheorems

attribute [local semireducible] Rat.add Rat.mul Rat.inv Rat.sub Rat.ofScientific

/-- C1: the claim says a peak index, once assigned a feature id, is never
later reassigned to a different group.  Counterexample: on `exC1spec`
with `basePs`, the high-intensity seed pass claims peak 2 into feature 0
(as an extension of seed 0), and the exhaustive pass later reassigns
peak 2 to feature 1 (as an extension of the still-unclaimed seed 1),
because the extension search never checks whether a candidate isotope
peak is already claimed. -/
theorem C1_peak_reclaimed_counterexample :
    (seedPassState exC1spec basePs).features.getD 2 (-1) = 0 ∧
    (discoverState exC1spec basePs).features.getD 2 (-1) = 1 := by
  decide

/-- C1 (amended): once a peak has been assigned a feature id, it is never
again used as a *seed*: its recorded charge (`mono_isotopic_peak`) and
its recorded isotope-run length (`iso_peak_count`) are final after the
pass that claimed it, and it stays claimed — but its feature id itself
may still be overwritten when a later seed's extension run re-claims it
as an isotope member. -/
theorem C1_claimed_peak_never_reseeded (spec : MSSpectrum) (ps : DeisoParams) (d : Nat)
    (h : ¬(seedPassState spec ps).features.getD d (-1) = -1) :
    (discoverState spec ps).mono.getD d 0 = (seedPassState spec ps).mono.getD d 0 ∧
    (discoverState spec ps).isoCount.getD d 1 = (seedPassState spec ps).isoCount.getD d 1 ∧
    ¬(discoverState spec ps).features.getD d (-1) = -1 := by
  have h5 := (seedPassState_shape spec ps).2.2.2.2
  unfold discoverState
  have hinv := foldl_invariant (passStep spec ps false) (List.range spec.peaks.length)
    (seedPassState spec ps)
    (R := fun t =>
      t.mono.getD d 0 = (seedPassState spec ps).mono.getD d 0 ∧
      t.isoCount.getD d 1 = (seedPassState spec ps).isoCount.getD d 1 ∧
      ¬t.features.getD d (-1) = -1 ∧ 0 ≤ t.featNum)
    (fun t c ht => by
      obtain ⟨h1, h2, h3, h4⟩ := ht
      obtain ⟨g1, g2, g3, g4⟩ := passStep_stable spec ps false t c d h4 h3
      exact ⟨g1.trans h1, g2.trans h2, g3, g4⟩)
    ⟨rfl, rfl, h, h5⟩
  exact ⟨hinv.1, hinv.2.1, hinv.2.2.1⟩

/-- Witness for C1 (amended) at the counterexample input: peak 2 is
claimed after the seed pass, and its recorded charge survives the
exhaustive pass unchanged. -/
theorem C1_claimed_peak_never_reseeded_witness :
    ¬(seedPassState exC1spec basePs).features.getD 2 (-1) = -1 ∧
    (discoverState exC1spec basePs).mono.getD 2 0 =
      (seedPassState exC1spec basePs).mono.getD 2 0 := by
  refine ⟨by decide, ?_⟩
  exact (C1_claimed_peak_never_reseeded exC1spec basePs 2 (by decide)).1

/-- C2: on `exC2spec` with `add_up_intensity`, the seed pass accepts the
two-peak group with seed 0 and accumulates 1000 + 500 = 1500 — but the
exhaustive pass unconditionally re-initialises
`mono_iso_peak_intensity[0]` to the peak's own intensity before the
already-claimed guard is consulted, wiping the sum, so the output
intensity of the kept monoisotopic peak is 1000 instead of the claimed
1500. -/
theorem C2_add_up_intensity_wiped_by_second_pass :
    (seedPassState exC2spec exC2ps).monoInt.getD 0 0 = 1500 ∧
    (discoverState exC2spec exC2ps).monoInt.getD 0 0 = 1000 ∧
    (deisoRun exC2spec exC2ps).peaks.map Peak.intensity = [1000, 500] ∧
    ¬(discoverState exC2spec exC2ps).features.getD 0 (-1) = -1 ∧
    (discoverState exC2spec exC2ps).mono.getD 0 0 = 1 := by
  decide

/-- C3: the claim says every input peak with m/z below 154.0 survives
for *every* configuration.  Counterexample: on `exC3spec` (both peaks
below 154) with `make_single_charged` on, the seed at 100 is accepted at
charge 2 and its m/z is rewritten to about 198.99 before the low-mass
preservation scan runs; that scan reads the rewritten m/z at index 0,
sees it at or above 154, and stops immediately, so the claimed isotope
member at 100.5 (input m/z far below 154) is dropped: the output holds
a single peak although both input peaks are below the threshold. -/
theorem C3_low_mz_peak_dropped_counterexample :
    (exC3spec.peaks.getD 0 default).mz < preserveLowMzThreshold ∧
    (exC3spec.peaks.getD 1 default).mz < preserveLowMzThreshold ∧
    sortedByMz exC3spec.peaks ∧
    validParams exC3ps ∧
    (deisoRun exC3spec exC3ps).peaks.length = 1 := by
  decide

/-- C3 (amended): when `make_single_charged` is false (so no m/z is
rewritten before the preservation scan), every input peak with m/z
below 154.0 is selected and appears in the output spectrum. -/
theorem C3_low_mz_preserved_without_make_single_charged (spec : MSSpectrum)
    (ps : DeisoParams) (i : Nat)
    (hs : sortedByMz spec.peaks) (hm : ps.make_single_charged = false)
    (hi : i < spec.peaks.length)
    (hmz : (spec.peaks.getD i default).mz < preserveLowMzThreshold) :
    i ∈ selectIndices spec ps ∧
    (spec.peaks.getD i default).mz ∈ (deisoRun spec ps).peaks.map Peak.mz := by
  have hsel : i ∈ selectIndices spec ps := by
    unfold selectIndices
    dsimp only
    apply lowMzGo_reaches
    · exact Nat.zero_le i
    · rw [outLoopState_peaks_length]
      omega
    · intro j hj1 hj2
      rw [outLoopState_peaks_mz spec ps hm j]
      exact lt_of_le_of_lt (sorted_getD_mono spec.peaks hs hj2 hi) hmz
  refine ⟨hsel, ?_⟩
  have hne : ¬spec.peaks.isEmpty = true := by
    cases hp : spec.peaks with
    | nil => rw [hp] at hi; simp at hi
    | cons a l => simp [hp]
  have hmem := deisoRun_mem_of_selected spec ps i hne hsel
  refine List.mem_map.mpr ⟨(outLoopState spec ps).peaks.getD i default, hmem, ?_⟩
  exact outLoopState_peaks_mz spec ps hm i

/-- Witness for C3 (amended): on the spec's scenario spectrum with
`make_single_charged` off, the (claimed) peak at 100.5 is still selected
and its m/z appears in the output. -/
theorem C3_low_mz_preserved_witness :
    1 ∈ selectIndices exC4spec exC4ps ∧
    (exC4spec.peaks.getD 1 default).mz ∈ (deisoRun exC4spec exC4ps).peaks.map Peak.mz :=
  C3_low_mz_preserved_without_make_single_charged exC4spec exC4ps 1
    (by decide) rfl (by decide) (by decide)

/-- C4: the claim says no isotope group is formed on the scenario
spectrum.  Counterexample: the expected first isotope of the seed at
100.0 lies at 101.00335, which is within the 0.05 Da tolerance of the
peak at 101.0 (distance about 0.0034), so a two-peak group {100.0,
101.0} *is* formed at charge 1: one feature is allocated, peaks 0 and 2
carry feature id 0, and the seed records charge 1; only the peak at
100.50 stays unassigned. -/
theorem C4_scenario_counterexample :
    (discoverState exC4spec exC4ps).featNum = 1 ∧
    (discoverState exC4spec exC4ps).features.getD 0 (-1) = 0 ∧
    (discoverState exC4spec exC4ps).features.getD 2 (-1) = 0 ∧
    (discoverState exC4spec exC4ps).features.getD 1 (-1) = -1 ∧
    (discoverState exC4spec exC4ps).mono.getD 0 0 = 1 := by
  decide

/-- C4 (amended): on the scenario spectrum a charge-1 group {100.0,
101.0} is formed (101.0 is within the 0.05 Da tolerance of the expected
101.00335); with either value of `keep_only_deisotoped` the output still
contains all three peaks — the seed is kept as a deisotoped
monoisotopic peak and the other two are force-kept by the low-mass
(154.0) preservation rule since every peak lies below it — with charge
annotations [1, 0, 0] and isotope-count annotations [2, 1, 1]. -/
theorem C4_scenario_actual_behavior :
    deisoRun exC4spec exC4ps =
      { peaks := [⟨100, 1000⟩, ⟨201 / 2, 50⟩, ⟨101, 900⟩]
        intArrays := [("charge", [1, 0, 0]), ("iso_peak_count", [2, 1, 1])] } ∧
    deisoRun exC4spec { exC4ps with keep_only_deisotoped := true } =
      { peaks := [⟨100, 1000⟩, ⟨201 / 2, 50⟩, ⟨101, 900⟩]
        intArrays := [("charge", [1, 0, 0]), ("iso_peak_count", [2, 1, 1])] } := by
  decide

/-- C5: `deisotopeAndSingleCharge` reports the invalid-argument error
exactly when `min_isopeaks < 2`, `max_isopeaks < 2` or
`min_isopeaks > max_isopeaks`; the check precedes every other step of
the routine (in the embedding the error branch is taken before any
computation on the spectrum, which is therefore untouched). -/
theorem C5_error_iff_invalid_isopeaks (spec : MSSpectrum) (ps : DeisoParams) :
    deisotopeAndSingleCharge spec ps = .error illegalIsoMsg ↔
      (ps.min_isopeaks < 2 ∨ ps.max_isopeaks < 2 ∨ ps.max_isopeaks < ps.min_isopeaks) := by
  unfold deisotopeAndSingleCharge
  split
  · next hcond => exact ⟨fun _ => hcond, fun _ => rfl⟩
  · next hcond =>
    constructor
    · intro h
      exact absurd h (by simp)
    · intro h
      exact absurd h hcond

/-- Witness for C5: `min_isopeaks = 1` triggers the error on a concrete
call. -/
theorem C5_error_iff_invalid_isopeaks_witness :
    deisotopeAndSingleCharge exC9spec exC5ps = .error illegalIsoMsg :=
  (C5_error_iff_invalid_isopeaks exC9spec exC5ps).mpr (Or.inl (by decide))

/-- C6: for an unclaimed seed, the charge recorded by the descending
charge loop is the *first* viable charge in the list `max_charge,
max_charge - 1, ..., min_charge` (none changes the slot when no charge
is viable), and any other viable charge in the range is at most the
recorded one — the higher charge wins. -/
theorem C6_highest_viable_charge_recorded (spec : MSSpectrum) (ps : DeisoParams)
    (b : Bool) (s : DState) (c : Nat)
    (hc : s.features.getD c (-1) = -1) (hnn : 0 ≤ s.featNum)
    (hm : c < s.mono.length) (hf : c < s.features.length) :
    (tryCharges spec ps b s c).mono.getD c 0 =
      ((chargesDesc ps.min_charge ps.max_charge).find?
        (chargeViable spec ps b c)).getD (s.mono.getD c 0) ∧
    ∀ q q' : Int,
      (chargesDesc ps.min_charge ps.max_charge).find? (chargeViable spec ps b c) = some q →
      ps.min_charge ≤ q' → q' ≤ ps.max_charge → chargeViable spec ps b c q' = true →
      q' ≤ q := by
  constructor
  · unfold tryCharges
    exact tryCharges_foldl_find spec ps b c _ s hc hnn hm hf
  · intro q q' hfind h1 h2 hp
    exact find_descending_max (chargesDesc_pairwise ps.min_charge ps.max_charge) hfind q'
      ((chargesDesc_mem _ _ _).mpr ⟨h1, h2⟩) hp

/-- Witness for C6: on the two-peak spectrum the only (and hence first)
viable charge 1 is recorded for seed 0. -/
theorem C6_highest_viable_charge_recorded_witness :
    (tryCharges exC2spec basePs true (initState 2) 0).mono.getD 0 0 = 1 := by
  have h := (C6_highest_viable_charge_recorded exC2spec basePs true (initState 2) 0
    (by decide) (by decide) (by decide) (by decide)).1
  rw [h]
  decide

/-- C7: during extension at isotope index i = 1, the high-intensity
seed pass rejects a candidate whose intensity ratio to the seed is below
0.01 (the run stops with `has_min_isopeaks` false since
`min_isopeaks ≥ 2`), while the exhaustive pass applies no such
lower-bound check and extends the run with that candidate; the
upper-bound 10.0 ratio check stops the run at i = 1 in *both* passes. -/
theorem C7_seed_pass_noise_guard_asymmetry (peaks : List Peak) (ps : DeisoParams)
    (mz tol : ℚ) (q : Int) (c p : Nat)
    (hfn : findNearest peaks (mz + 1 * c13c12MassDiffU / (q : ℚ)) tol = some p)
    (hprev : 0 < (peakAt peaks c).intensity)
    (hmin : 2 ≤ ps.min_isopeaks) (hmax : 2 ≤ ps.max_isopeaks) :
    ((peakAt peaks p).intensity / (peakAt peaks c).intensity < 1 / 100 →
      extendGo peaks ps true mz tol q (ps.max_isopeaks - 1) 1 [c] = ([c], false) ∧
      p ∈ (extendGo peaks ps false mz tol q (ps.max_isopeaks - 1) 1 [c]).1 ∧
      2 ≤ (extendGo peaks ps false mz tol q (ps.max_isopeaks - 1) 1 [c]).1.length) ∧
    ((10 : ℚ) < (peakAt peaks p).intensity / (peakAt peaks c).intensity →
      extendGo peaks ps true mz tol q (ps.max_isopeaks - 1) 1 [c] = ([c], false) ∧
      extendGo peaks ps false mz tol q (ps.max_isopeaks - 1) 1 [c] = ([c], false)) := by
  obtain ⟨k, hk⟩ : ∃ k, ps.max_isopeaks - 1 = k + 1 := ⟨ps.max_isopeaks - 2, by omega⟩
  have hfn' : findNearest peaks (mz + ((1 : ℕ) : ℚ) * c13c12MassDiffU / (q : ℚ)) tol
      = some p := by rw [Nat.cast_one]; exact hfn
  have hlast : ([c] : List Nat).getLastD 0 = c := rfl
  have e4 : decide (ps.min_isopeaks ≤ 1) = false := decide_eq_false (by omega)
  constructor
  · intro hratio
    have hcand : (peakAt peaks p).intensity < (peakAt peaks c).intensity := by
      have h1 : (peakAt peaks p).intensity < 1 / 100 * (peakAt peaks c).intensity :=
        (div_lt_iff₀ hprev).mp hratio
      nlinarith
    have e1 : decide ((peakAt peaks c).intensity < (peakAt peaks p).intensity) = false :=
      decide_eq_false (not_lt.mpr (le_of_lt hcand))
    have e2 : decide ((10 : ℚ) < (peakAt peaks p).intensity / (peakAt peaks c).intensity)
        = false := by
      apply decide_eq_false
      intro hcontra
      linarith
    have e3 : decide ((peakAt peaks p).intensity / (peakAt peaks c).intensity < 1 / 100)
        = true := decide_eq_true hratio
    refine ⟨?_, ?_, ?_⟩
    · rw [hk, extendGo_succ, hfn']
      dsimp only
      rw [hlast, e1, e2, e3, e4]
      simp
    · rw [hk, extendGo_succ, hfn']
      dsimp only
      rw [hlast, e1, e2]
      simp only [Bool.and_false, Bool.false_and, Bool.false_eq_true, if_false]
      exact extendGo_mem peaks ps false mz tol q k 2 ([c] ++ [p]) p
        (List.mem_append.mpr (Or.inr (List.mem_singleton.mpr rfl)))
    · rw [hk, extendGo_succ, hfn']
      dsimp only
      rw [hlast, e1, e2]
      simp only [Bool.and_false, Bool.false_and, Bool.false_eq_true, if_false]
      exact le_of_eq_of_le rfl
        (extendGo_length_ge peaks ps false mz tol q k (1 + 1) ([c] ++ [p]))
  · intro hratio
    have e2 : decide ((10 : ℚ) < (peakAt peaks p).intensity / (peakAt peaks c).intensity)
        = true := decide_eq_true hratio
    have hgen : ∀ b : Bool,
        extendGo peaks ps b mz tol q (ps.max_isopeaks - 1) 1 [c] = ([c], false) := by
      intro b
      rw [hk, extendGo_succ, hfn']
      dsimp only
      rw [hlast, e2, e4]
      by_cases hdec : (ps.use_decreasing_model && decide (ps.start_intensity_check ≤ 1)
          && decide ((peakAt peaks c).intensity < (peakAt peaks p).intensity)) = true
      · rw [if_pos hdec]
      · rw [if_neg hdec]
        simp
    exact ⟨hgen true, hgen false⟩

/-- Witness for C7 at a concrete input: the candidate at one mass
difference above the seed has ratio 1/1000 < 0.01; the seed-pass run
rejects it while the exhaustive-pass run keeps it. -/
theorem C7_seed_pass_noise_guard_asymmetry_witness :
    extendGo exC7spec.peaks basePs true 100 (1 / 10) 1
        (basePs.max_isopeaks - 1) 1 [0] = ([0], false) ∧
    1 ∈ (extendGo exC7spec.peaks basePs false 100 (1 / 10) 1
        (basePs.max_isopeaks - 1) 1 [0]).1 := by
  have h := (C7_seed_pass_noise_guard_asymmetry exC7spec.peaks basePs 100 (1 / 10) 1 0 1
    (by decide) (by decide) (by decide) (by decide)).1 (by decide)
  exact ⟨h.1, h.2.1⟩

/-- C8: an accepted isotope run (extension ended with
`has_min_isopeaks` true for an unclaimed, unpruned seed) claims exactly
the peaks of the extension list: with `annotate_iso_peak_count` on, the
recorded `iso_peak_count` of the seed equals the extension length, that
length lies in [min_isopeaks, max_isopeaks], and every member of the
extension list carries the new feature id. -/
theorem C8_group_size_recorded_and_bounded (spec : MSSpectrum) (ps : DeisoParams)
    (b : Bool) (s : DState) (c : Nat) (q : Int) (exts : List Nat)
    (hv : validParams ps) (hann : ps.annotate_iso_peak_count = true)
    (hc : s.features.getD c (-1) = -1)
    (hlen1 : c < s.isoCount.length) (hlen2 : s.features.length = spec.peaks.length)
    (hclen : c < spec.peaks.length)
    (hpr : precursorPrunes spec (tolDaltonFor ps (peakAt spec.peaks c).mz)
      (peakAt spec.peaks c).mz q = false)
    (hE : extendGo spec.peaks ps b (peakAt spec.peaks c).mz
      (tolDaltonFor ps (peakAt spec.peaks c).mz) q (ps.max_isopeaks - 1) 1 [c]
      = (exts, true)) :
    (tryCharge spec ps b s c q).isoCount.getD c 1 = exts.length ∧
    ps.min_isopeaks ≤ exts.length ∧ exts.length ≤ ps.max_isopeaks ∧
    ∀ j ∈ exts, (tryCharge spec ps b s c q).features.getD j (-1) = s.featNum := by
  obtain ⟨v1, v2, v3⟩ := hv
  have hup := extendGo_length_le spec.peaks ps b (peakAt spec.peaks c).mz
    (tolDaltonFor ps (peakAt spec.peaks c).mz) q (ps.max_isopeaks - 1) 1 [c]
  rw [hE] at hup
  have hone : ([c] : List Nat).length = 1 := rfl
  have hupper : exts.length ≤ ps.max_isopeaks := by
    dsimp only at hup
    omega
  have hlow := extendGo_min_of_true spec.peaks ps b (peakAt spec.peaks c).mz
    (tolDaltonFor ps (peakAt spec.peaks c).mz) q (ps.max_isopeaks - 1) 1 [c] rfl
    (by rw [hE])
  rw [hE] at hlow
  have hlower : ps.min_isopeaks ≤ exts.length := by
    dsimp only at hlow
    omega
  have hmemlt : ∀ j ∈ exts, j < s.features.length := by
    intro j hj
    have hj' : j ∈ (extendGo spec.peaks ps b (peakAt spec.peaks c).mz
        (tolDaltonFor ps (peakAt spec.peaks c).mz) q (ps.max_isopeaks - 1) 1 [c]).1 := by
      rw [hE]
      exact hj
    rcases extendGo_elem spec.peaks ps b (peakAt spec.peaks c).mz
        (tolDaltonFor ps (peakAt spec.peaks c).mz) q (ps.max_isopeaks - 1) 1 [c] j hj'
      with hm | hlt
    · rw [List.mem_singleton.mp hm, hlen2]
      exact hclen
    · rw [hlen2]
      exact hlt
  have hcond : (ps.annotate_iso_peak_count && decide (2 ≤ exts.length)) = true := by
    rw [hann, decide_eq_true (by omega : 2 ≤ exts.length)]
    rfl
  have hfinal : tryCharge spec ps b s c q =
      { mono := s.mono.set c q
        features := claimExtensions exts s.featNum s.features
        monoInt :=
          if ps.add_up_intensity then
            s.monoInt.set c (s.monoInt.getD c 0 +
              ((exts.drop 1).map (fun j => (peakAt spec.peaks j).intensity)).sum)
          else s.monoInt
        isoCount := s.isoCount.set c exts.length
        featNum := s.featNum + 1 } := by
    unfold tryCharge
    rw [if_pos hc]
    dsimp only
    rw [if_neg (by rw [hpr]; exact Bool.false_ne_true), hE]
    dsimp only
    rw [hcond]
    simp
  rw [hfinal]
  refine ⟨?_, hlower, hupper, ?_⟩
  · exact getD_set_self s.isoCount hlen1 exts.length 1
  · intro j hj
    rw [claimExtensions_getD, if_pos ⟨hj, hmemlt j hj⟩]

/-- Witness for C8 at a concrete accepted group: the two-peak run of
`exC2spec` records iso count 2 and claims both peaks for feature 0. -/
theorem C8_group_size_recorded_and_bounded_witness :
    (tryCharge exC2spec exC8ps false (initState 2) 0 1).isoCount.getD 0 1 = 2 ∧
    (tryCharge exC2spec exC8ps false (initState 2) 0 1).features.getD 1 (-1) = 0 := by
  have h := C8_group_size_recorded_and_bounded exC2spec exC8ps false (initState 2) 0 1
    [0, 1] (by decide) rfl (by decide) (by decide) (by decide) (by decide)
    rfl (by decide)
  exact ⟨h.1, h.2.2.2 1 (by decide)⟩

/-- C9: on an empty spectrum with a valid configuration no error is
raised: the requested "charge" and "iso_peak_count" integer data arrays
are still appended (each empty, after any pre-existing arrays) and the
routine returns with the peak list still empty. -/
theorem C9_empty_spectrum_ok (spec : MSSpectrum) (ps : DeisoParams)
    (hv : validParams ps) (he : spec.peaks = []) :
    deisotopeAndSingleCharge spec ps =
      .ok { peaks := []
            intArrays := spec.intArrays ++
              (if ps.annotate_charge then [("charge", [])] else []) ++
              (if ps.annotate_iso_peak_count then [("iso_peak_count", [])] else []) } := by
  obtain ⟨v1, v2, v3⟩ := hv
  unfold deisotopeAndSingleCharge
  rw [if_neg (by omega)]
  unfold deisoRun
  rw [he]
  rfl

/-- Witness for C9: the empty spectrum with one pre-existing array and
both annotations requested yields exactly the three (empty) arrays. -/
theorem C9_empty_spectrum_ok_witness :
    deisotopeAndSingleCharge exC9spec exC4ps =
      .ok { peaks := []
            intArrays := [("prior", []), ("charge", []), ("iso_peak_count", [])] } := by
  have h := C9_empty_spectrum_ok exC9spec exC4ps (by decide) rfl
  rw [h]
  rfl

/-- C10: for every input spectrum and parameter record, the selected
index set is duplicate-free and consists of indices of original peaks,
so the output peak count never exceeds the input peak count. -/
theorem C10_output_count_le_input (spec : MSSpectrum) (ps : DeisoParams) :
    (selectIndices spec ps).Nodup ∧
    (∀ x ∈ selectIndices spec ps, x < spec.peaks.length) ∧
    (deisoRun spec ps).peaks.length ≤ spec.peaks.length := by
  obtain ⟨h1, h2⟩ := selectIndices_nodup_bound spec ps
  exact ⟨h1, h2, deisoRun_length_le spec ps⟩

/-- Witness for C10 at the scenario spectrum. -/
theorem C10_output_count_le_input_witness :
    (deisoRun exC4spec exC4ps).peaks.length ≤ exC4spec.peaks.length :=
  (C10_output_count_le_input exC4spec exC4ps).2.2

end ClaimTheorems

end OpenMS
